import Mathlib

/-!
Shallow embedding of the reversible-migration scripts of this repository:
the journal-writing migration runner (migration.js, also the middle
variant), the journal replay / undo engine (undo.js of the middle
variant) and the legacy tag-encoded backup variant (earliest variant).

Modelling choices, all taken from the source:
- a document is an `_id` plus an association list of string-valued
  fields; a collection is a list of documents; the store is an
  association list of named collections;
- the filters and update instructions the scripts pass to the driver are
  the field lists they use in practice: a filter is a list of field/value
  pairs that must all be present, an update instruction is the field list
  of a `$set` document;
- `insertOne` appends a document with a freshly assigned identifier
  (`res.insertedId` becomes the state's `nextId` counter), `updateOne`,
  `deleteOne` and `replaceOne` act on the first identifier match, as the
  driver does on the unique `_id` index; `replaceOne` of an absent
  document is a no-op (no upsert), and a replacement carrying an `_id`
  different from the matched document is rejected by the driver, hence
  modelled as leaving the store unchanged (the script catches the error);
- exceptions thrown by individual store writes are supplied by an
  explicit oracle (`FailOracle`), standing for the per-call try/catch in
  the scripts.
-/

namespace Mig

abbrev DocId := Nat

abbrev Fields := List (String × String)

structure Doc where
  id : DocId
  fields : Fields
deriving DecidableEq

abbrev Filter := List (String × String)

abbrev UpdateInstr := List (String × String)

abbrev Store := List (String × List Doc)

def lookupField : Fields → String → Option String
  | [], _ => none
  | (k, v) :: t, k' => if k = k' then some v else lookupField t k'

def setField : Fields → String → String → Fields
  | [], k, v => [(k, v)]
  | (k0, v0) :: t, k, v => if k0 = k then (k, v) :: t else (k0, v0) :: setField t k v

/-- Effect of a `$set` update document on the fields of one document. -/
def setFields (fs : Fields) (u : UpdateInstr) : Fields :=
  u.foldl (fun acc p => setField acc p.1 p.2) fs

def getColl : Store → String → List Doc
  | [], _ => []
  | (n, l) :: t, c => if n = c then l else getColl t c

def setColl : Store → String → List Doc → Store
  | [], c, l => [(c, l)]
  | (n, v) :: t, c, l => if n = c then (n, l) :: t else (n, v) :: setColl t c l

def matchesFilter (d : Doc) (f : Filter) : Bool :=
  f.all (fun p => lookupField d.fields p.1 == some p.2)

/-- The matched document set of `find(filter).toArray()`. -/
def matchFilter (l : List Doc) (f : Filter) : List Doc :=
  l.filter (fun d => matchesFilter d f)

def findDoc : List Doc → DocId → Option Doc
  | [], _ => none
  | d :: t, i => if d.id = i then some d else findDoc t i

/-- `updateOne({_id: i}, {$set: u})`: apply the update to the first
identifier match (unique under the `_id` index). -/
def updateOne : List Doc → DocId → UpdateInstr → List Doc
  | [], _, _ => []
  | d :: t, i, u => if d.id = i then ⟨d.id, setFields d.fields u⟩ :: t else d :: updateOne t i u

/-- `deleteOne({_id: i})`: remove the first identifier match; deleting an
absent document is a zero-effect success. -/
def deleteOne : List Doc → DocId → List Doc
  | [], _ => []
  | d :: t, i => if d.id = i then t else d :: deleteOne t i

/-- `replaceOne({_id: i}, doc)`: full replacement of the first identifier
match; no upsert, so replacing an absent document is a no-op. -/
def replaceOne : List Doc → DocId → Fields → List Doc
  | [], _, _ => []
  | d :: t, i, f => if d.id = i then ⟨i, f⟩ :: t else d :: replaceOne t i f

inductive ActionKind
  | insert
  | update
deriving DecidableEq

inductive ActionStatus
  | success
  | error
  | dryRun
deriving DecidableEq

/-- One journal entry, with the exact fields the scripts write:
`collection`, `action`, `status`, `_id`, `document` (insert payload),
`previous` (pre-mutation full document of an update), `update` (the
update instruction) and `error` (stringified exception).  Fields a given
branch does not write are `none`. -/
structure ActionRecord where
  collection : String
  action : ActionKind
  status : ActionStatus
  id : Option DocId := none
  document : Option Fields := none
  previous : Option Doc := none
  update : Option UpdateInstr := none
  error : Option String := none
deriving DecidableEq

/-- The in-memory `migrationLog` object `{tag, createdAt, actions}`. -/
structure MigrationRun where
  tag : String
  createdAt : String
  actions : List ActionRecord
deriving DecidableEq

/-- State threaded through a migration run: the in-memory run object,
the persisted journal file contents (`none` before the first write), the
store and the driver's next generated `_id`. -/
structure MigState where
  run : MigrationRun
  persisted : Option MigrationRun
  store : Store
  nextId : DocId
deriving DecidableEq

/-- Oracle supplying the exceptions the driver may throw for a given
insert or per-document update; `none` means the call succeeds. -/
structure FailOracle where
  insertFail : String → Fields → Option String
  updateFail : String → DocId → Option String

structure Config where
  dryRun : Bool
deriving DecidableEq

/-- logAction: push the entry onto `migrationLog.actions`, then rewrite
the whole run object to the journal file (`fs.writeFileSync`). -/
def logAction (s : MigState) (e : ActionRecord) : MigState :=
  let run' : MigrationRun := { s.run with actions := s.run.actions ++ [e] }
  { s with run := run', persisted := some run' }

def logActions (s : MigState) (es : List ActionRecord) : MigState :=
  es.foldl logAction s

def dryInsertRecord (c : String) (d : Fields) : ActionRecord :=
  { collection := c, action := .insert, status := .dryRun, document := some d }

def successInsertRecord (c : String) (i : DocId) (d : Fields) : ActionRecord :=
  { collection := c, action := .insert, status := .success, id := some i, document := some d }

def errorInsertRecord (c : String) (d : Fields) (e : String) : ActionRecord :=
  { collection := c, action := .insert, status := .error, document := some d, error := some e }

def dryUpdateRecord (c : String) (u : UpdateInstr) (d : Doc) : ActionRecord :=
  { collection := c, action := .update, status := .dryRun, id := some d.id,
    previous := some d, update := some u }

def successUpdateRecord (c : String) (u : UpdateInstr) (d : Doc) : ActionRecord :=
  { collection := c, action := .update, status := .success, id := some d.id,
    previous := some d, update := some u }

def errorUpdateRecord (c : String) (u : UpdateInstr) (i : DocId) (e : String) : ActionRecord :=
  { collection := c, action := .update, status := .error, id := some i,
    update := some u, error := some e }

/-- insertDocument: dry-run records the intent without touching the
store; otherwise `insertOne` appends the document under a fresh
identifier, and a thrown exception is caught and recorded as an error
entry. -/
def insertDocument (cfg : Config) (o : FailOracle) (s : MigState) (c : String)
    (doc : Fields) : MigState :=
  if cfg.dryRun then
    logAction s (dryInsertRecord c doc)
  else
    match o.insertFail c doc with
    | none =>
      let i := s.nextId
      let s' := { s with store := setColl s.store c (getColl s.store c ++ [⟨i, doc⟩]),
                         nextId := i + 1 }
      logAction s' (successInsertRecord c i doc)
    | some e => logAction s (errorInsertRecord c doc e)

/-- The per-document for-loop of updateDocuments in normal mode: try the
single-document `updateOne`, record success with the pre-mutation
document as `previous`, or catch the exception and record an error entry
(without `previous`), then continue with the remaining documents. -/
def updateLoop (o : FailOracle) (c : String) (u : UpdateInstr) :
    MigState → List Doc → MigState
  | s, [] => s
  | s, d :: rest =>
    match o.updateFail c d.id with
    | none =>
      let s' := { s with store := setColl s.store c (updateOne (getColl s.store c) d.id u) }
      updateLoop o c u (logAction s' (successUpdateRecord c u d)) rest
    | some e => updateLoop o c u (logAction s (errorUpdateRecord c u d.id e)) rest

/-- The per-document for-loop of updateDocuments in dry-run mode: one
dryRun entry per matched document, carrying `_id`, `previous` and the
update instruction, with no store write. -/
def dryUpdateLoop (c : String) (u : UpdateInstr) : MigState → List Doc → MigState
  | s, [] => s
  | s, d :: rest => dryUpdateLoop c u (logAction s (dryUpdateRecord c u d)) rest

/-- updateDocuments: resolve the filter once against the store, then run
the per-document loop of the selected mode over the matched set. -/
def updateDocuments (cfg : Config) (o : FailOracle) (s : MigState) (c : String)
    (f : Filter) (u : UpdateInstr) : MigState :=
  if cfg.dryRun then
    dryUpdateLoop c u s (matchFilter (getColl s.store c) f)
  else
    updateLoop o c u s (matchFilter (getColl s.store c) f)

/-- One planned operation of a migration run. -/
inductive PlannedOp
  | ins (c : String) (doc : Fields)
  | upd (c : String) (f : Filter) (u : UpdateInstr)

def runOp (cfg : Config) (o : FailOracle) (s : MigState) : PlannedOp → MigState
  | .ins c d => insertDocument cfg o s c d
  | .upd c f u => updateDocuments cfg o s c f u

/-- A migration run: the planned operations executed strictly in order
(insertMultipleDocuments is one insert call per document). -/
def runOps (cfg : Config) (o : FailOracle) (s : MigState) (ops : List PlannedOp) : MigState :=
  ops.foldl (runOp cfg o) s

/-- Demanded characterization of a dry run (from the spec): one
dryRun-status record per insert call and one per document matched by
each update's filter, all matched against the initial store. -/
def specDryRunJournal (st : Store) : List PlannedOp → List ActionRecord
  | [] => []
  | .ins c d :: rest => dryInsertRecord c d :: specDryRunJournal st rest
  | .upd c f u :: rest =>
    (matchFilter (getColl st c) f).map (dryUpdateRecord c u) ++ specDryRunJournal st rest

/-- The body of the undo for-loop of undo.js for one recorded action:
an insert recorded as success is inverted by `deleteOne` on its `_id`; an
update recorded as success whose `previous` field is truthy is inverted
by `replaceOne` with the full `previous` document; everything else
(dryRun entries, error entries, updates without `previous`) is skipped.
A missing `_id` makes `new ObjectId(undefined)` a fresh identifier that
matches nothing; a `previous` whose `_id` differs from the recorded one
makes the driver reject the replacement, which the loop's try/catch turns
into a logged no-op. -/
def undoAction (s : Store) (a : ActionRecord) : Store :=
  let s1 :=
    if a.action = .insert ∧ a.status = .success then
      match a.id with
      | some i => setColl s a.collection (deleteOne (getColl s a.collection) i)
      | none => s
    else s
  if a.action = .update ∧ a.status = .success then
    match a.previous, a.id with
    | some p, some i =>
      if p.id = i then
        setColl s1 a.collection (replaceOne (getColl s1 a.collection) i p.fields)
      else s1
    | _, _ => s1
  else s1

def undoActs (s : Store) (acts : List ActionRecord) : Store :=
  acts.foldl undoAction s

/-- Candidate action list of undo.js: all recorded actions, or only
those whose `_id` equals the optional identifier argument. -/
def candidateActions (acts : List ActionRecord) (flt : Option DocId) : List ActionRecord :=
  match flt with
  | none => acts
  | some fid => acts.filter (fun a => a.id == some fid)

/-- undoMigration of undo.js: replay the candidate actions of the loaded
journal in their recorded order, inverting each. -/
def undoMigration (s : Store) (acts : List ActionRecord) (flt : Option DocId) : Store :=
  undoActs s (candidateActions acts flt)

/-- Outcome of running the undo script end to end: its exit code,
whether a store connection was made, the message of a fatal report, and
the final store. -/
structure UndoResult where
  exitCode : Nat
  connected : Bool
  message : Option String
  store : Store
deriving DecidableEq

def lookupJournal : List (String × List ActionRecord) → String → Option (List ActionRecord)
  | [], _ => none
  | (t, acts) :: rest, tag => if t = tag then some acts else lookupJournal rest tag

/-- Top level of undo.js: a missing tag argument exits 1 with a usage
message before anything else; a tag whose journal file does not exist
exits 1 with a report before any store connection; otherwise the journal
is loaded and replayed against a connected store, exiting 0. -/
def undoScript (files : List (String × List ActionRecord)) (store : Store)
    (tagArg : Option String) (idArg : Option DocId) : UndoResult :=
  match tagArg with
  | none =>
    ⟨1, false, some "Please provide a tag to undo. Usage: node undo.js <TAG> [optional _id]", store⟩
  | some tag =>
    match lookupJournal files tag with
    | none =>
      ⟨1, false, some ("Migration file not found: migration_" ++ tag ++ ".json"), store⟩
    | some acts => ⟨0, true, none, undoMigration store acts idArg⟩

/-- Legacy variant, tag derivation: `new Date().toISOString().replace(/[:.]/g, "_")`. -/
def encodeTag (s : String) : String :=
  String.mk (s.data.map (fun ch => if ch = ':' ∨ ch = '.' then '_' else ch))

/-- Legacy variant, tag decoding in undoMigration:
`new Date(TAG.replace(/_/g, ":"))` turns every underscore back into a
colon. -/
def decodeTag (s : String) : String :=
  String.mk (s.data.map (fun ch => if ch = '_' then ':' else ch))

/-! Verification machinery: the effect of one undo step on the store,
viewed as an optional single-cell operation (delete or full replacement
at one identifier of one collection).  These definitions are proof
infrastructure, not part of the embedding of the scripts. -/

inductive CellOp
  | del
  | rep (f : Fields)
deriving DecidableEq

def applyCellOp (l : List Doc) (i : DocId) : CellOp → List Doc
  | .del => deleteOne l i
  | .rep f => replaceOne l i f

/-- The single-cell operation a recorded action performs during undo,
if any. -/
def actionOp (a : ActionRecord) : Option (String × DocId × CellOp) :=
  if a.action = .insert ∧ a.status = .success then
    match a.id with
    | some i => some (a.collection, i, .del)
    | none => none
  else if a.action = .update ∧ a.status = .success then
    match a.previous, a.id with
    | some p, some i => if p.id = i then some (a.collection, i, .rep p.fields) else none
    | _, _ => none
  else none

def applyOp (s : Store) (p : String × DocId × CellOp) : Store :=
  setColl s p.1 (applyCellOp (getColl s p.1) p.2.1 p.2.2)

def applyOps (s : Store) (os : List (String × DocId × CellOp)) : Store :=
  os.foldl applyOp s

def opsAt (os : List (String × DocId × CellOp)) (c : String) : List (DocId × CellOp) :=
  os.filterMap (fun p => if p.1 = c then some p.2 else none)

def appOp (l : List Doc) (p : DocId × CellOp) : List Doc :=
  applyCellOp l p.1 p.2

/-- Replay of the cell operations hitting one collection. -/
def replayCol (l : List Doc) (t : List (DocId × CellOp)) : List Doc :=
  t.foldl appOp l

/-- Abstract outcome of a cell-operation sequence for one identifier:
left alone, finally deleted, or finally set to given fields if present. -/
inductive CellRes
  | keep
  | kill
  | setTo (f : Fields)
deriving DecidableEq

def cellStep : CellRes → CellOp → CellRes
  | .kill, _ => .kill
  | _, .del => .kill
  | _, .rep f => .setTo f

def stepAt (i : DocId) (r : CellRes) (p : DocId × CellOp) : CellRes :=
  if p.1 = i then cellStep r p.2 else r

def cellFold (t : List (DocId × CellOp)) (i : DocId) : CellRes :=
  t.foldl (stepAt i) .keep

/-- What a cell-operation sequence does to one document of the
collection. -/
def resolveDoc (t : List (DocId × CellOp)) (d : Doc) : Option Doc :=
  match cellFold t d.id with
  | .keep => some d
  | .kill => none
  | .setTo f => some ⟨d.id, f⟩

def ids (l : List Doc) : List DocId :=
  l.map Doc.id

/-- Store invariant maintained by the driver's unique `_id` index: no
collection holds two documents with the same identifier. -/
def WFStore (s : Store) : Prop :=
  ∀ e ∈ s, (ids e.2).Nodup

instance : DecidablePred WFStore := fun s =>
  inferInstanceAs (Decidable (∀ e ∈ s, (ids e.2).Nodup))

theorem getColl_setColl_same (s : Store) (c : String) (l : List Doc) :
    getColl (setColl s c l) c = l := by
  induction s with
  | nil => simp [setColl, getColl]
  | cons e t ih =>
    obtain ⟨n, v⟩ := e
    by_cases h : n = c
    · simp [setColl, getColl, h]
    · simp [setColl, getColl, h, ih]

theorem getColl_setColl_ne (s : Store) (c c' : String) (l : List Doc) (h : c' ≠ c) :
    getColl (setColl s c l) c' = getColl s c' := by
  induction s with
  | nil => simp [setColl, getColl, Ne.symm h]
  | cons e t ih =>
    obtain ⟨n, v⟩ := e
    by_cases hn : n = c
    · subst hn
      simp [setColl, getColl, Ne.symm h]
    · simp [setColl, getColl, hn, ih]

theorem findDoc_deleteOne_ne (l : List Doc) (j i : DocId) (h : j ≠ i) :
    findDoc (deleteOne l j) i = findDoc l i := by
  induction l with
  | nil => rfl
  | cons d t ih =>
    by_cases hd : d.id = j
    · simp [deleteOne, findDoc, hd, h]
    · simp only [deleteOne, hd, if_false, findDoc]
      by_cases hi : d.id = i
      · simp [hi]
      · simp [hi, ih]

theorem findDoc_replaceOne_ne (l : List Doc) (j i : DocId) (f : Fields) (h : j ≠ i) :
    findDoc (replaceOne l j f) i = findDoc l i := by
  induction l with
  | nil => rfl
  | cons d t ih =>
    by_cases hd : d.id = j
    · have hdi : d.id ≠ i := by rw [hd]; exact h
      simp [replaceOne, findDoc, hd, hdi, h]
    · simp only [replaceOne, hd, if_false, findDoc]
      by_cases hi : d.id = i
      · simp [hi]
      · simp [hi, ih]

theorem findDoc_replaceOne_self (l : List Doc) (i : DocId) (f : Fields)
    (h : (findDoc l i).isSome = true) :
    findDoc (replaceOne l i f) i = some ⟨i, f⟩ := by
  induction l with
  | nil => simp [findDoc] at h
  | cons d t ih =>
    by_cases hd : d.id = i
    · simp [replaceOne, findDoc, hd]
    · simp only [findDoc, hd, if_false] at h
      simp [replaceOne, findDoc, hd, ih h]

set_option linter.unnecessarySeqFocus false in
theorem undoAction_eq (s : Store) (a : ActionRecord) :
    undoAction s a = match actionOp a with
      | none => s
      | some p => applyOp s p := by
  unfold undoAction actionOp applyOp applyCellOp
  cases ha : a.action <;> cases hs : a.status <;>
    cases hid : a.id <;> cases hp : a.previous <;>
      simp_all <;> split_ifs <;> simp_all

theorem actionOp_fields {a : ActionRecord} {p : String × DocId × CellOp}
    (h : actionOp a = some p) : p.1 = a.collection ∧ a.id = some p.2.1 := by
  unfold actionOp at h
  split_ifs at h
  · cases hid : a.id with
    | none => rw [hid] at h; cases h
    | some i => rw [hid] at h; cases h; exact ⟨rfl, rfl⟩
  · cases hp : a.previous with
    | none => simp only [hp] at h; cases h
    | some P =>
      cases hid : a.id with
      | none => simp only [hp, hid] at h; cases h
      | some i =>
        simp only [hp, hid] at h
        split_ifs at h
        cases h
        exact ⟨rfl, rfl⟩

theorem findDoc_applyOp_ne (s : Store) (p : String × DocId × CellOp) (c : String)
    (j : DocId) (h : ¬(p.1 = c ∧ p.2.1 = j)) :
    findDoc (getColl (applyOp s p) c) j = findDoc (getColl s c) j := by
  obtain ⟨pc, pi, op⟩ := p
  by_cases hc : pc = c
  · subst hc
    have hij : pi ≠ j := fun hh => h ⟨rfl, hh⟩
    rw [applyOp]
    simp only [getColl_setColl_same]
    cases op with
    | del => exact findDoc_deleteOne_ne _ _ _ hij
    | rep f => exact findDoc_replaceOne_ne _ _ _ _ hij
  · rw [applyOp, getColl_setColl_ne _ _ _ _ (fun hh => hc hh.symm)]

theorem findDoc_applyOps_ne (os : List (String × DocId × CellOp)) (s : Store)
    (c : String) (j : DocId) (h : ∀ p ∈ os, ¬(p.1 = c ∧ p.2.1 = j)) :
    findDoc (getColl (applyOps s os) c) j = findDoc (getColl s c) j := by
  induction os generalizing s with
  | nil => rfl
  | cons p t ih =>
    show findDoc (getColl (applyOps (applyOp s p) t) c) j = _
    rw [ih (applyOp s p) (fun q hq => h q (List.mem_cons_of_mem _ hq)),
      findDoc_applyOp_ne s p c j (h p (List.mem_cons_self _ _))]

theorem undoActs_eq_applyOps (acts : List ActionRecord) (s : Store) :
    undoActs s acts = applyOps s (acts.filterMap actionOp) := by
  induction acts generalizing s with
  | nil => rfl
  | cons a t ih =>
    show undoActs (undoAction s a) t = applyOps s (List.filterMap actionOp (a :: t))
    rw [List.filterMap_cons]
    cases h : actionOp a with
    | none =>
      have : undoAction s a = s := by rw [undoAction_eq, h]
      rw [this, ih]
    | some p =>
      have : undoAction s a = applyOp s p := by rw [undoAction_eq, h]
      rw [this]
      exact ih (applyOp s p)

theorem findDoc_undoActs_ne (acts : List ActionRecord) (s : Store) (c : String)
    (j : DocId) (h : ∀ b ∈ acts, ¬(b.collection = c ∧ b.id = some j)) :
    findDoc (getColl (undoActs s acts) c) j = findDoc (getColl s c) j := by
  rw [undoActs_eq_applyOps]
  apply findDoc_applyOps_ne
  intro p hp
  obtain ⟨b, hb, hpb⟩ := List.mem_filterMap.mp hp
  obtain ⟨h1, h2⟩ := actionOp_fields hpb
  intro ⟨hc, hj⟩
  exact h b hb ⟨h1 ▸ hc, by rw [h2, hj]⟩

theorem undoAction_update_success {a : ActionRecord} {P : Doc} {i : DocId} (s : Store)
    (ha : a.action = .update) (hs : a.status = .success) (hp : a.previous = some P)
    (hid : a.id = some i) (hpi : P.id = i) :
    undoAction s a =
      setColl s a.collection (replaceOne (getColl s a.collection) i P.fields) := by
  unfold undoAction
  rw [ha, hs, hp, hid]
  simp [hpi]

theorem logAction_run_actions (s : MigState) (e : ActionRecord) :
    (logAction s e).run.actions = s.run.actions ++ [e] := rfl

theorem logAction_store (s : MigState) (e : ActionRecord) :
    (logAction s e).store = s.store := rfl

theorem logActions_run_actions (es : List ActionRecord) (s : MigState) :
    (logActions s es).run.actions = s.run.actions ++ es := by
  induction es generalizing s with
  | nil => simp [logActions]
  | cons e t ih =>
    show (logActions (logAction s e) t).run.actions = _
    rw [ih, logAction_run_actions, List.append_assoc]
    rfl

theorem dryUpdateLoop_store (c : String) (u : UpdateInstr) (docs : List Doc) (s : MigState) :
    (dryUpdateLoop c u s docs).store = s.store := by
  induction docs generalizing s with
  | nil => rfl
  | cons d t ih => rw [dryUpdateLoop, ih, logAction_store]

theorem dryUpdateLoop_actions (c : String) (u : UpdateInstr) (docs : List Doc) (s : MigState) :
    (dryUpdateLoop c u s docs).run.actions =
      s.run.actions ++ docs.map (dryUpdateRecord c u) := by
  induction docs generalizing s with
  | nil => simp [dryUpdateLoop]
  | cons d t ih =>
    rw [dryUpdateLoop, ih, logAction_run_actions, List.map_cons, List.append_assoc]
    rfl

theorem updateLoop_actions (o : FailOracle) (c : String) (u : UpdateInstr)
    (docs : List Doc) (s : MigState) :
    (updateLoop o c u s docs).run.actions =
      s.run.actions ++ docs.map (fun d =>
        match o.updateFail c d.id with
        | none => successUpdateRecord c u d
        | some e => errorUpdateRecord c u d.id e) := by
  induction docs generalizing s with
  | nil => simp [updateLoop]
  | cons d t ih =>
    rw [updateLoop]
    cases h : o.updateFail c d.id with
    | none =>
      rw [ih, logAction_run_actions, List.map_cons, h, List.append_assoc]
      rfl
    | some e =>
      rw [ih, logAction_run_actions, List.map_cons, h, List.append_assoc]
      rfl

/-- Store and journal shape of a run with the dry-run flag set: the
store is never written, and the journal grows by exactly the records of
`specDryRunJournal`. -/
theorem runOps_dry (o : FailOracle) (ops : List PlannedOp) (s : MigState) :
    (runOps ⟨true⟩ o s ops).store = s.store ∧
      (runOps ⟨true⟩ o s ops).run.actions =
        s.run.actions ++ specDryRunJournal s.store ops := by
  induction ops generalizing s with
  | nil => simp [runOps, specDryRunJournal]
  | cons op t ih =>
    have step : runOps ⟨true⟩ o s (op :: t) = runOps ⟨true⟩ o (runOp ⟨true⟩ o s op) t := rfl
    cases op with
    | ins c d =>
      have hop : runOp ⟨true⟩ o s (.ins c d) = logAction s (dryInsertRecord c d) := by
        simp [runOp, insertDocument]
      obtain ⟨ihs, iha⟩ := ih (logAction s (dryInsertRecord c d))
      refine ⟨?_, ?_⟩
      · rw [step, hop, ihs, logAction_store]
      · rw [step, hop, iha, logAction_run_actions, logAction_store,
          specDryRunJournal, List.append_assoc]
        rfl
    | upd c f u =>
      have hop : runOp ⟨true⟩ o s (.upd c f u) =
          dryUpdateLoop c u s (matchFilter (getColl s.store c) f) := by
        simp [runOp, updateDocuments]
      obtain ⟨ihs, iha⟩ := ih (dryUpdateLoop c u s (matchFilter (getColl s.store c) f))
      refine ⟨?_, ?_⟩
      · rw [step, hop, ihs, dryUpdateLoop_store]
      · rw [step, hop, iha, dryUpdateLoop_actions, dryUpdateLoop_store,
          specDryRunJournal, List.append_assoc]

theorem prev_insertDocument {cfg : Config} {o : FailOracle} {s : MigState} {c : String}
    {d : Fields} {r : ActionRecord}
    (h : r ∈ (insertDocument cfg o s c d).run.actions) :
    r ∈ s.run.actions ∨ (r.previous.isSome ↔ (r.action = .update ∧ r.status ≠ .error)) := by
  unfold insertDocument at h
  split_ifs at h
  · rw [logAction_run_actions] at h
    rcases List.mem_append.mp h with h' | h'
    · exact Or.inl h'
    · right
      rw [List.mem_singleton.mp h']
      simp [dryInsertRecord]
  · cases ho : o.insertFail c d <;> rw [ho] at h <;>
      rw [logAction_run_actions] at h <;>
      rcases List.mem_append.mp h with h' | h'
    · exact Or.inl h'
    · right
      rw [List.mem_singleton.mp h']
      simp [successInsertRecord]
    · exact Or.inl h'
    · right
      rw [List.mem_singleton.mp h']
      simp [errorInsertRecord]

theorem prev_updateLoop {o : FailOracle} {c : String} {u : UpdateInstr}
    {docs : List Doc} {s : MigState} {r : ActionRecord}
    (h : r ∈ (updateLoop o c u s docs).run.actions) :
    r ∈ s.run.actions ∨ (r.previous.isSome ↔ (r.action = .update ∧ r.status ≠ .error)) := by
  rw [updateLoop_actions] at h
  rcases List.mem_append.mp h with h' | h'
  · exact Or.inl h'
  · right
    obtain ⟨d, _, hd⟩ := List.mem_map.mp h'
    cases ho : o.updateFail c d.id <;> rw [ho] at hd <;> rw [← hd]
    · simp [successUpdateRecord]
    · simp [errorUpdateRecord]

theorem prev_dryUpdateLoop {c : String} {u : UpdateInstr}
    {docs : List Doc} {s : MigState} {r : ActionRecord}
    (h : r ∈ (dryUpdateLoop c u s docs).run.actions) :
    r ∈ s.run.actions ∨ (r.previous.isSome ↔ (r.action = .update ∧ r.status ≠ .error)) := by
  rw [dryUpdateLoop_actions] at h
  rcases List.mem_append.mp h with h' | h'
  · exact Or.inl h'
  · right
    obtain ⟨d, _, hd⟩ := List.mem_map.mp h'
    rw [← hd]
    simp [dryUpdateRecord]

theorem prev_runOps {cfg : Config} {o : FailOracle} {ops : List PlannedOp} {s : MigState}
    (hs : ∀ r ∈ s.run.actions, r.previous.isSome ↔ (r.action = .update ∧ r.status ≠ .error)) :
    ∀ r ∈ (runOps cfg o s ops).run.actions,
      r.previous.isSome ↔ (r.action = .update ∧ r.status ≠ .error) := by
  induction ops generalizing s with
  | nil => exact hs
  | cons op t ih =>
    show ∀ r ∈ (runOps cfg o (runOp cfg o s op) t).run.actions, _
    apply ih
    intro r hr
    cases op with
    | ins c d =>
      rcases prev_insertDocument hr with h' | h'
      · exact hs r h'
      · exact h'
    | upd c f u =>
      have hr' : r ∈ (updateDocuments cfg o s c f u).run.actions := hr
      unfold updateDocuments at hr'
      split_ifs at hr'
      · rcases prev_dryUpdateLoop hr' with h' | h'
        · exact hs r h'
        · exact h'
      · rcases prev_updateLoop hr' with h' | h'
        · exact hs r h'
        · exact h'

theorem ids_cons (d : Doc) (l : List Doc) : ids (d :: l) = d.id :: ids l := rfl

theorem deleteOne_not_mem (l : List Doc) (i : DocId) (h : i ∉ ids l) :
    deleteOne l i = l := by
  induction l with
  | nil => rfl
  | cons d t ih =>
    rw [ids_cons, List.mem_cons] at h
    push_neg at h
    rw [deleteOne, if_neg (fun hh => h.1 hh.symm), ih h.2]

theorem replaceOne_not_mem (l : List Doc) (i : DocId) (f : Fields) (h : i ∉ ids l) :
    replaceOne l i f = l := by
  induction l with
  | nil => rfl
  | cons d t ih =>
    rw [ids_cons, List.mem_cons] at h
    push_neg at h
    rw [replaceOne, if_neg (fun hh => h.1 hh.symm), ih h.2]

theorem ids_replaceOne (l : List Doc) (i : DocId) (f : Fields) :
    ids (replaceOne l i f) = ids l := by
  induction l with
  | nil => rfl
  | cons d t ih =>
    by_cases hd : d.id = i
    · rw [replaceOne, if_pos hd, ids_cons, ids_cons, hd]
    · rw [replaceOne, if_neg hd, ids_cons, ids_cons, ih]

theorem ids_deleteOne_sublist (l : List Doc) (i : DocId) :
    (ids (deleteOne l i)).Sublist (ids l) := by
  induction l with
  | nil => exact List.Sublist.refl _
  | cons d t ih =>
    by_cases hd : d.id = i
    · rw [deleteOne, if_pos hd, ids_cons]
      exact List.Sublist.cons _ (List.Sublist.refl _)
    · rw [deleteOne, if_neg hd, ids_cons, ids_cons]
      exact List.Sublist.cons₂ _ ih

theorem not_mem_ids_appOp (l : List Doc) (p : DocId × CellOp) (i : DocId)
    (h : i ∉ ids l) : i ∉ ids (appOp l p) := by
  obtain ⟨j, op⟩ := p
  cases op with
  | del => exact fun hm => h ((ids_deleteOne_sublist l j).subset hm)
  | rep f =>
    rw [appOp, applyCellOp, ids_replaceOne]
    exact h

theorem appOp_cons_ne (d : Doc) (l : List Doc) (j : DocId) (op : CellOp)
    (h : d.id ≠ j) : appOp (d :: l) (j, op) = d :: appOp l (j, op) := by
  cases op with
  | del => rw [appOp, applyCellOp, deleteOne, if_neg h]; rfl
  | rep f => rw [appOp, applyCellOp, replaceOne, if_neg h]; rfl

theorem replayCol_nil (t : List (DocId × CellOp)) : replayCol [] t = [] := by
  induction t with
  | nil => rfl
  | cons p t ih =>
    show replayCol (appOp [] p) t = []
    obtain ⟨j, op⟩ := p
    cases op with
    | del => exact ih
    | rep f => exact ih

theorem cellStep_ne_keep (r : CellRes) (op : CellOp) : cellStep r op ≠ .keep := by
  cases r <;> cases op <;> simp [cellStep]

theorem cellStep_setTo (f : Fields) (op : CellOp) :
    cellStep (.setTo f) op = cellStep .keep op := by
  cases op <;> rfl

theorem foldl_stepAt_kill (i : DocId) (t : List (DocId × CellOp)) :
    t.foldl (stepAt i) .kill = .kill := by
  induction t with
  | nil => rfl
  | cons p t ih =>
    show t.foldl (stepAt i) (stepAt i .kill p) = .kill
    have : stepAt i .kill p = .kill := by
      unfold stepAt
      split_ifs with h
      · cases p.2 <;> rfl
      · rfl
    rw [this, ih]

theorem foldl_stepAt_ne_keep (i : DocId) (t : List (DocId × CellOp)) (r : CellRes)
    (h : r ≠ .keep) : t.foldl (stepAt i) r ≠ .keep := by
  induction t generalizing r with
  | nil => exact h
  | cons p t ih =>
    show t.foldl (stepAt i) (stepAt i r p) ≠ .keep
    apply ih
    unfold stepAt
    split_ifs with hp
    · exact cellStep_ne_keep _ _
    · exact h

theorem foldl_stepAt_setTo (i : DocId) (t : List (DocId × CellOp)) (f : Fields) :
    t.foldl (stepAt i) (.setTo f) =
      match t.foldl (stepAt i) .keep with
      | .keep => .setTo f
      | r => r := by
  induction t with
  | nil => rfl
  | cons p t ih =>
    show t.foldl (stepAt i) (stepAt i (.setTo f) p) =
      match t.foldl (stepAt i) (stepAt i .keep p) with
      | .keep => .setTo f
      | r => r
    by_cases hp : p.1 = i
    · rw [stepAt, if_pos hp, stepAt, if_pos hp, cellStep_setTo]
      have h1 : t.foldl (stepAt i) (cellStep .keep p.2) ≠ .keep :=
        foldl_stepAt_ne_keep i t _ (cellStep_ne_keep _ _)
      cases hX : t.foldl (stepAt i) (cellStep .keep p.2) with
      | keep => exact absurd hX h1
      | kill => rfl
      | setTo g => rfl
    · rw [stepAt, if_neg hp, stepAt, if_neg hp]
      exact ih

theorem resolveDoc_cons_ne (t : List (DocId × CellOp)) (d : Doc) (j : DocId)
    (op : CellOp) (h : j ≠ d.id) :
    resolveDoc ((j, op) :: t) d = resolveDoc t d := by
  unfold resolveDoc cellFold
  have : List.foldl (stepAt d.id) .keep ((j, op) :: t) =
      List.foldl (stepAt d.id) .keep t := by
    show List.foldl (stepAt d.id) (stepAt d.id .keep (j, op)) t = _
    rw [stepAt, if_neg h]
  rw [this]

theorem resolveDoc_cons_del (t : List (DocId × CellOp)) (d : Doc) :
    resolveDoc ((d.id, .del) :: t) d = none := by
  unfold resolveDoc cellFold
  have : List.foldl (stepAt d.id) .keep ((d.id, .del) :: t) = .kill := by
    show List.foldl (stepAt d.id) (stepAt d.id .keep (d.id, .del)) t = .kill
    rw [stepAt, if_pos rfl]
    exact foldl_stepAt_kill _ _
  rw [this]

theorem resolveDoc_cons_rep (t : List (DocId × CellOp)) (d : Doc) (f : Fields) :
    resolveDoc ((d.id, .rep f) :: t) d = resolveDoc t ⟨d.id, f⟩ := by
  unfold resolveDoc cellFold
  have h0 : List.foldl (stepAt d.id) .keep ((d.id, .rep f) :: t) =
      List.foldl (stepAt d.id) (.setTo f) t := by
    show List.foldl (stepAt d.id) (stepAt d.id .keep (d.id, .rep f)) t = _
    rw [stepAt, if_pos rfl]
    rfl
  rw [h0, foldl_stepAt_setTo]
  cases List.foldl (stepAt d.id) .keep t <;> rfl

theorem replayCol_cons (t : List (DocId × CellOp)) (d : Doc) (l : List Doc)
    (hd : d.id ∉ ids l) :
    replayCol (d :: l) t =
      match resolveDoc t d with
      | some d' => d' :: replayCol l t
      | none => replayCol l t := by
  induction t generalizing d l with
  | nil => rfl
  | cons p t ih =>
    obtain ⟨j, op⟩ := p
    by_cases hj : j = d.id
    · subst hj
      cases op with
      | del =>
        show replayCol (appOp (d :: l) (d.id, .del)) t = _
        have h1 : appOp (d :: l) (d.id, .del) = l := by
          rw [appOp, applyCellOp, deleteOne, if_pos rfl]
        have h2 : replayCol l ((d.id, .del) :: t) = replayCol l t := by
          show replayCol (appOp l (d.id, .del)) t = _
          rw [appOp, applyCellOp, deleteOne_not_mem l d.id hd]
        rw [h1]
        simp only [resolveDoc_cons_del, h2]
      | rep f =>
        show replayCol (appOp (d :: l) (d.id, .rep f)) t = _
        have h1 : appOp (d :: l) (d.id, .rep f) = (⟨d.id, f⟩ : Doc) :: l := by
          rw [appOp, applyCellOp, replaceOne, if_pos rfl]
        have h2 : replayCol l ((d.id, .rep f) :: t) = replayCol l t := by
          show replayCol (appOp l (d.id, .rep f)) t = _
          rw [appOp, applyCellOp, replaceOne_not_mem l d.id f hd]
        rw [h1, ih ⟨d.id, f⟩ l hd]
        simp only [resolveDoc_cons_rep, h2]
    · have hne : d.id ≠ j := fun hh => hj hh.symm
      show replayCol (appOp (d :: l) (j, op)) t = _
      rw [appOp_cons_ne d l j op hne, ih d (appOp l (j, op)) (not_mem_ids_appOp l (j, op) d.id hd)]
      have h2 : replayCol l ((j, op) :: t) = replayCol (appOp l (j, op)) t := rfl
      simp only [resolveDoc_cons_ne t d j op hj, h2]

theorem replayCol_eq_filterMap (t : List (DocId × CellOp)) (l : List Doc)
    (h : (ids l).Nodup) :
    replayCol l t = l.filterMap (resolveDoc t) := by
  induction l with
  | nil => exact replayCol_nil t
  | cons d l ih =>
    rw [ids_cons, List.nodup_cons] at h
    rw [replayCol_cons t d l h.1, List.filterMap_cons, ih h.2]
    cases resolveDoc t d <;> rfl

theorem resolveDoc_id {t : List (DocId × CellOp)} {d d' : Doc}
    (h : resolveDoc t d = some d') : d'.id = d.id := by
  unfold resolveDoc at h
  cases hc : cellFold t d.id <;> rw [hc] at h
  · cases h; rfl
  · cases h
  · cases h; rfl

theorem ids_filterMap_resolve_sublist (t : List (DocId × CellOp)) (l : List Doc) :
    (ids (l.filterMap (resolveDoc t))).Sublist (ids l) := by
  induction l with
  | nil => exact List.Sublist.refl _
  | cons d l ih =>
    rw [List.filterMap_cons]
    cases hres : resolveDoc t d with
    | none => exact List.Sublist.cons _ ih
    | some d' =>
      rw [ids_cons, ids_cons, resolveDoc_id hres]
      exact List.Sublist.cons₂ _ ih

theorem resolveDoc_bind_self (t : List (DocId × CellOp)) (d : Doc) :
    (resolveDoc t d).bind (resolveDoc t) = resolveDoc t d := by
  cases hc : cellFold t d.id with
  | keep => simp [resolveDoc, hc]
  | kill => simp [resolveDoc, hc]
  | setTo f => simp [resolveDoc, hc]

/-- Idempotence of the replay of a cell-operation sequence over one
collection, under the unique-identifier invariant. -/
theorem replayCol_idem (t : List (DocId × CellOp)) (l : List Doc)
    (h : (ids l).Nodup) :
    replayCol (replayCol l t) t = replayCol l t := by
  have h2 : (ids (l.filterMap (resolveDoc t))).Nodup :=
    (ids_filterMap_resolve_sublist t l).nodup h
  rw [replayCol_eq_filterMap t l h, replayCol_eq_filterMap t _ h2,
    List.filterMap_filterMap]
  exact congrArg (fun f => l.filterMap f) (funext (resolveDoc_bind_self t))

theorem getColl_applyOps (os : List (String × DocId × CellOp)) (s : Store) (c : String) :
    getColl (applyOps s os) c = replayCol (getColl s c) (opsAt os c) := by
  induction os generalizing s with
  | nil => rfl
  | cons p t ih =>
    show getColl (applyOps (applyOp s p) t) c = _
    rw [ih]
    obtain ⟨pc, pi, op⟩ := p
    by_cases hc : pc = c
    · subst hc
      have h1 : getColl (applyOp s (pc, pi, op)) pc = applyCellOp (getColl s pc) pi op := by
        rw [applyOp, getColl_setColl_same]
      have h2 : opsAt ((pc, pi, op) :: t) pc = (pi, op) :: opsAt t pc := by
        rw [opsAt, List.filterMap_cons, if_pos rfl]
        rfl
      rw [h1, h2]
      rfl
    · have h1 : getColl (applyOp s (pc, pi, op)) c = getColl s c := by
        rw [applyOp, getColl_setColl_ne _ _ _ _ (fun hh => hc hh.symm)]
      have h2 : opsAt ((pc, pi, op) :: t) c = opsAt t c := by
        rw [opsAt, List.filterMap_cons, if_neg hc]
        rfl
      rw [h1, h2]

theorem nodup_getColl (s : Store) (h : WFStore s) (c : String) :
    (ids (getColl s c)).Nodup := by
  induction s with
  | nil => simp [getColl, ids]
  | cons e t ih =>
    obtain ⟨n, v⟩ := e
    by_cases hn : n = c
    · rw [getColl, if_pos hn]
      exact h (n, v) (List.mem_cons_self _ _)
    · rw [getColl, if_neg hn]
      exact ih (fun e he => h e (List.mem_cons_of_mem _ he))

/-- Claim C1, counterexample: the claim states that an ActionRecord
carries `previousState` if and only if its kind is update and its status
is success.  In a dry run, the update branch writes one dryRun record per
matched document that carries `previous: doc`, so a dryRun-status record
with `previousState` exists: here the single record of a dry run over one
matched document is such a record. -/
theorem claimC1_counterexample :
    dryUpdateRecord "z" [("status", "new")] ⟨1, [("status", "old")]⟩ ∈
      (runOps ⟨true⟩ ⟨fun _ _ => none, fun _ _ => none⟩
        ⟨⟨"T", "C", []⟩, none, [("z", [⟨1, [("status", "old")]⟩])], 0⟩
        [.upd "z" [("status", "old")] [("status", "new")]]).run.actions ∧
    (dryUpdateRecord "z" [("status", "new")] ⟨1, [("status", "old")]⟩).previous.isSome = true ∧
    ¬((dryUpdateRecord "z" [("status", "new")] ⟨1, [("status", "old")]⟩).action = .update ∧
      (dryUpdateRecord "z" [("status", "new")] ⟨1, [("status", "old")]⟩).status = .success) := by
  decide

/-- Claim C1, amended: every ActionRecord written to the journal by any
operation carries `previousState` if and only if its kind is update and
its status is not error — update records with status success or dryRun
carry it, and no error-status record and no insert record carries it. -/
theorem claimC1_amended (cfg : Config) (o : FailOracle) (store : Store) (n : DocId)
    (tag createdAt : String) (ops : List PlannedOp) (r : ActionRecord)
    (hr : r ∈ (runOps cfg o ⟨⟨tag, createdAt, []⟩, none, store, n⟩ ops).run.actions) :
    r.previous.isSome ↔ (r.action = .update ∧ r.status ≠ .error) :=
  prev_runOps (fun r h => absurd h (List.not_mem_nil r)) r hr

/-- Claim C1, witness: the amended theorem applied to a concrete normal
run whose journal holds one success update record. -/
theorem claimC1_witness :
    (successUpdateRecord "z" [("status", "new")] ⟨1, [("status", "old")]⟩ ∈
      (runOps ⟨false⟩ ⟨fun _ _ => none, fun _ _ => none⟩
        ⟨⟨"T", "C", []⟩, none, [("z", [⟨1, [("status", "old")]⟩])], 0⟩
        [.upd "z" [("status", "old")] [("status", "new")]]).run.actions) ∧
    ((successUpdateRecord "z" [("status", "new")] ⟨1, [("status", "old")]⟩).previous.isSome ↔
      ((successUpdateRecord "z" [("status", "new")] ⟨1, [("status", "old")]⟩).action = .update ∧
       (successUpdateRecord "z" [("status", "new")] ⟨1, [("status", "old")]⟩).status ≠ .error)) :=
  ⟨by decide,
    claimC1_amended ⟨false⟩ ⟨fun _ _ => none, fun _ _ => none⟩
      [("z", [⟨1, [("status", "old")]⟩])] 0 "T" "C"
      [.upd "z" [("status", "old")] [("status", "new")]]
      (successUpdateRecord "z" [("status", "new")] ⟨1, [("status", "old")]⟩) (by decide)⟩

/-- Claim C2: for a recorded update/success action carrying
`previousState` P at identifier i, replaying the journal with undo (no
identifier filter) leaves the document at i in the recorded collection
equal to exactly P's content — a complete replacement of all fields, so
fields the update added are gone and untouched fields are restored.  The
hypotheses are the implicit context of the claim: the document exists
when the action is replayed (replaceOne does not upsert) and no later
recorded action targets the same cell (the replay is sequential, so a
later action would be what determines the final state). -/
theorem claimC2 (store : Store) (l1 l2 : List ActionRecord) (a : ActionRecord)
    (P : Doc) (i : DocId)
    (ha : a.action = .update) (hs : a.status = .success) (hp : a.previous = some P)
    (hid : a.id = some i) (hpi : P.id = i)
    (hpresent : (findDoc (getColl (undoActs store l1) a.collection) i).isSome = true)
    (hlast : ∀ b ∈ l2, ¬(b.collection = a.collection ∧ b.id = some i)) :
    findDoc (getColl (undoMigration store (l1 ++ a :: l2) none) a.collection) i
      = some ⟨i, P.fields⟩ := by
  show findDoc (getColl (undoActs store (l1 ++ a :: l2)) a.collection) i = _
  rw [undoActs, List.foldl_append]
  show findDoc (getColl (undoActs (undoAction (undoActs store l1) a) l2) a.collection) i = _
  rw [findDoc_undoActs_ne l2 _ _ _ hlast,
    undoAction_update_success _ ha hs hp hid hpi, getColl_setColl_same]
  exact findDoc_replaceOne_self _ _ _ hpresent

/-- Claim C2, witness: undoing a concrete one-action journal restores
the document to its recorded previous content, removing the field the
update added and restoring the field value it changed. -/
theorem claimC2_witness :
    ((findDoc (getColl (undoActs [("z", [⟨1, [("status", "new"), ("updatedAt", "T")]⟩])] [])
      "z") 1).isSome = true) ∧
    findDoc (getColl (undoMigration [("z", [⟨1, [("status", "new"), ("updatedAt", "T")]⟩])]
      [successUpdateRecord "z" [("status", "new")] ⟨1, [("status", "old")]⟩] none) "z") 1
      = some ⟨1, [("status", "old")]⟩ :=
  ⟨by decide,
    claimC2 [("z", [⟨1, [("status", "new"), ("updatedAt", "T")]⟩])] [] []
      (successUpdateRecord "z" [("status", "new")] ⟨1, [("status", "old")]⟩)
      ⟨1, [("status", "old")]⟩ 1 rfl rfl rfl rfl rfl (by decide) (by decide)⟩

/-- Claim C3: undo is idempotent.  For any journal and any identifier
filter, replaying undo a second time from the state the first undo
produced leaves every collection of the store exactly as the first undo
left it, provided the store satisfies the unique-`_id` invariant; no
per-action inverse can abort the pass, since delete-of-absent and
replace-of-absent are no-ops of the store operations themselves. -/
theorem claimC3 (store : Store) (acts : List ActionRecord) (flt : Option DocId)
    (hwf : WFStore store) (c : String) :
    getColl (undoMigration (undoMigration store acts flt) acts flt) c =
      getColl (undoMigration store acts flt) c := by
  unfold undoMigration
  rw [undoActs_eq_applyOps, undoActs_eq_applyOps]
  simp only [getColl_applyOps]
  exact replayCol_idem _ _ (nodup_getColl store hwf c)

/-- Claim C3, witness: the idempotence theorem applied to a concrete
store and two-action journal. -/
theorem claimC3_witness :
    WFStore [("z", [⟨1, [("a", "x")]⟩]), ("y", [⟨2, []⟩])] ∧
    getColl (undoMigration (undoMigration [("z", [⟨1, [("a", "x")]⟩]), ("y", [⟨2, []⟩])]
        [successInsertRecord "y" 2 [], successUpdateRecord "z" [("a", "new")] ⟨1, [("a", "old")]⟩]
        none)
      [successInsertRecord "y" 2 [], successUpdateRecord "z" [("a", "new")] ⟨1, [("a", "old")]⟩]
      none) "z" =
    getColl (undoMigration [("z", [⟨1, [("a", "x")]⟩]), ("y", [⟨2, []⟩])]
      [successInsertRecord "y" 2 [], successUpdateRecord "z" [("a", "new")] ⟨1, [("a", "old")]⟩]
      none) "z" :=
  ⟨by decide,
    claimC3 [("z", [⟨1, [("a", "x")]⟩]), ("y", [⟨2, []⟩])]
      [successInsertRecord "y" 2 [], successUpdateRecord "z" [("a", "new")] ⟨1, [("a", "old")]⟩]
      none (by decide) "z"⟩

/-- Claim C4: a run with the dry-run flag enabled performs zero store
mutations (the final store is the initial store, and every step of the
fold preserves it), and its journal gains exactly the records of
`specDryRunJournal`: one dryRun-status record per insert call, and one
dryRun-status record per document matched by each update's filter, all
matched against the (unchanged) initial store. -/
theorem claimC4 (o : FailOracle) (s : MigState) (ops : List PlannedOp) :
    (runOps ⟨true⟩ o s ops).store = s.store ∧
      (runOps ⟨true⟩ o s ops).run.actions =
        s.run.actions ++ specDryRunJournal s.store ops :=
  runOps_dry o ops s

/-- Claim C5: invoking undo with a tag for which no journal file exists
reports the missing journal and exits with code 1, with no store
connection made and the store left untouched. -/
theorem claimC5 (files : List (String × List ActionRecord)) (store : Store)
    (tag : String) (flt : Option DocId) (h : lookupJournal files tag = none) :
    undoScript files store (some tag) flt =
      ⟨1, false, some ("Migration file not found: migration_" ++ tag ++ ".json"), store⟩ := by
  have hstep : undoScript files store (some tag) flt =
      match lookupJournal files tag with
      | none => ⟨1, false, some ("Migration file not found: migration_" ++ tag ++ ".json"), store⟩
      | some acts => ⟨0, true, none, undoMigration store acts flt⟩ := rfl
  rw [hstep, h]

/-- Claim C5, witness: the missing-journal theorem applied to an empty
journal directory and a concrete tag. -/
theorem claimC5_witness :
    lookupJournal [] "2024-01-01T00_00_00_000Z" = none ∧
    undoScript [] [("z", [⟨1, []⟩])] (some "2024-01-01T00_00_00_000Z") none =
      ⟨1, false,
        some ("Migration file not found: migration_" ++ "2024-01-01T00_00_00_000Z" ++ ".json"),
        [("z", [⟨1, []⟩])]⟩ :=
  ⟨rfl, claimC5 [] [("z", [⟨1, []⟩])] "2024-01-01T00_00_00_000Z" none rfl⟩

/-- Claim C6: in a normal-mode per-document update pass, each matched
document yields exactly one journal record — a success record with the
pre-mutation document as `previous` when the mutation succeeds, an
error-status record carrying the thrown detail for that document when it
fails — and a failure never removes later matched documents from the
pass: the journal gains one record per matched document regardless of
which mutations fail. -/
theorem claimC6 (o : FailOracle) (s : MigState) (c : String) (f : Filter) (u : UpdateInstr) :
    (updateDocuments ⟨false⟩ o s c f u).run.actions =
      s.run.actions ++ (matchFilter (getColl s.store c) f).map (fun d =>
        match o.updateFail c d.id with
        | none => successUpdateRecord c u d
        | some e => errorUpdateRecord c u d.id e) := by
  have h : updateDocuments ⟨false⟩ o s c f u =
      updateLoop o c u s (matchFilter (getColl s.store c) f) := by
    simp [updateDocuments]
  rw [h, updateLoop_actions]

/-- Claim C7: undo with an identifier filter builds its candidate list
as exactly the recorded actions whose `_id` equals the filter (all
actions when the filter is absent), and every document cell with a
different identifier is left untouched by the whole undo pass, in every
collection. -/
theorem claimC7 :
    (∀ acts : List ActionRecord, candidateActions acts none = acts) ∧
    ∀ (store : Store) (acts : List ActionRecord) (fid j : DocId) (c : String),
      j ≠ fid →
      findDoc (getColl (undoMigration store acts (some fid)) c) j =
        findDoc (getColl store c) j := by
  constructor
  · intro acts
    rfl
  · intro store acts fid j c hj
    unfold undoMigration
    apply findDoc_undoActs_ne
    intro b hb
    rw [candidateActions] at hb
    have hid : b.id = some fid := by
      have hmem := List.mem_filter.mp hb
      simpa using hmem.2
    intro hcol
    rw [hid] at hcol
    injection hcol.2 with hfj
    exact hj hfj.symm

/-- Claim C7, witness: undoing with filter `_id = 1` leaves the cell of
document 2 unchanged. -/
theorem claimC7_witness :
    (2 : DocId) ≠ 1 ∧
    findDoc (getColl (undoMigration [("z", [⟨1, [("a", "x")]⟩, ⟨2, [("a", "y")]⟩])]
        [successInsertRecord "z" 1 [("a", "x")]] (some 1)) "z") 2 =
      findDoc (getColl [("z", [⟨1, [("a", "x")]⟩, ⟨2, [("a", "y")]⟩])] "z") 2 :=
  ⟨by decide,
    claimC7.2 [("z", [⟨1, [("a", "x")]⟩, ⟨2, [("a", "y")]⟩])]
      [successInsertRecord "z" 1 [("a", "x")]] 1 2 "z" (by decide)⟩

/-- Claim C8: the legacy tag decoding is not the inverse of the tag
encoding.  `toISOString` always contains a millisecond dot; encoding
maps both the colons and that dot to underscores, and decoding maps
every underscore back to a colon, so the decoded string turns the
millisecond dot into a colon and differs from the original invocation
timestamp (it is not even a valid date string, so the time-window delete
of restore(tag) does not act at the encoded time). -/
theorem claimC8_bug :
    decodeTag (encodeTag "2026-10-11T12:34:56.789Z") = "2026-10-11T12:34:56:789Z" ∧
    decodeTag (encodeTag "2026-10-11T12:34:56.789Z") ≠ "2026-10-11T12:34:56.789Z" := by
  constructor
  · decide
  · decide

/-- Claim C9: logAction appends exactly one record to the end of the
run's action sequence, persists the complete updated run object (same
tag) before returning, and the journal is append-only within a run: any
sequence of logAction calls extends the action list by exactly the
logged entries, never editing or removing an existing record. -/
theorem claimC9 (s : MigState) (e : ActionRecord) (es : List ActionRecord) :
    (logAction s e).run.actions = s.run.actions ++ [e] ∧
    (logAction s e).persisted = some ((logAction s e).run) ∧
    (logAction s e).run.tag = s.run.tag ∧
    (logActions s es).run.actions = s.run.actions ++ es :=
  ⟨rfl, rfl, rfl, logActions_run_actions es s⟩

/-- Claim C10, counterexample: the claim states that an update/success
action whose `previousState` is absent or empty is skipped with no store
mutation.  An empty previous document is a truthy object, so the replay
guard passes and the document is replaced by the empty content: here the
store is mutated. -/
theorem claimC10_counterexample :
    undoAction [("z", [⟨1, [("k", "v")]⟩])]
        { collection := "z", action := .update, status := .success, id := some 1,
          previous := some ⟨1, []⟩ } ≠ [("z", [⟨1, [("k", "v")]⟩])] ∧
    undoAction [("z", [⟨1, [("k", "v")]⟩])]
        { collection := "z", action := .update, status := .success, id := some 1,
          previous := some ⟨1, []⟩ } = [("z", [⟨1, []⟩])] := by
  decide

/-- Claim C10, amended: during undo, an update/success action whose
`previousState` field is absent is silently skipped — no store mutation
and no error — because the replay guard requires a truthy `previous`
in addition to the success status; an empty previous document, being
truthy, is not skipped but replayed as a full replacement. -/
theorem claimC10_amended (s : Store) (a : ActionRecord)
    (ha : a.action = .update) (hst : a.status = .success) (hp : a.previous = none) :
    undoAction s a = s := by
  unfold undoAction
  rw [ha, hst, hp]
  simp

/-- Claim C10, witness: the amended theorem applied to a concrete store
and a success update record with no `previous` field. -/
theorem claimC10_witness :
    undoAction [("z", [⟨7, [("k", "v")]⟩])]
        { collection := "z", action := .update, status := .success, id := some 7 } =
      [("z", [⟨7, [("k", "v")]⟩])] :=
  claimC10_amended [("z", [⟨7, [("k", "v")]⟩])]
    { collection := "z", action := .update, status := .success, id := some 7 } rfl rfl rfl

end Mig
